import Mathlib

/-!
Shallow embedding of the OpenActa/Haystack storage engine core
(mem_structure.go, the compare/accessor methods, the Dictionary,
the bunch/stalk insert pipeline, SortBale, the mem2disk serialiser
fragments and the disk2mem reader state machine), together with
theorems settling the frozen claims about it.

Modelling conventions
* Go machine integers (`uint32`, `int64`, `uint8`) are `Nat`/`Int`; wrap-around
  is written explicitly (`% 2^32`) where the source can overflow.
* Go `float64` values are modelled by `GoFloat`: IEEE ordering behaviour only
  (`nan` is incomparable, `inf`/`neginf` are the two infinities, `fin q` is a
  finite value represented exactly by a rational).  Rounding of decimal
  literals to binary is not modelled; it is monotone and therefore does not
  affect any ordering fact proved here.
* Go `*string` is `Option String` (nil = `none`).  Pointer identity is not
  observable in the model; string de-duplication therefore rewrites a value
  to an equal value.
* `strings.ToLower` / `strings.EqualFold` are modelled with the ASCII
  `goToLower`; all concrete inputs used below are ASCII, where the Go
  Unicode case mapping coincides with it byte for byte.
* Go byte-wise string comparison (`<`, `>`) is Lean's `String` order
  (codepoint-lexicographic, which equals UTF-8 byte order).
-/

/-- Source `max_keylen` from mem_structure.go. -/
def max_keylen : Nat := 255

/-- Source `hashtable_size` from mem_structure.go (16M slots, 24-bit). -/
def hashtable_size : Nat := 16 * 1024 * 1024

/-- Source `Timestamp_key` from mem_structure.go. -/
def Timestamp_key : String := "_timestamp"

/-- Source `haystalk_ofs_nil` from mem_structure.go (0xffffffff). -/
def haystalk_ofs_nil : Nat := 0xffffffff

/-- Source `hash_skip` from the Dictionary file. -/
def hash_skip : Nat := 101

/-- Source `hashkey_mask` from the Dictionary file (24-bit mask). -/
def hashkey_mask : Nat := 0x00ffffff

/-- Source `valtype_int` from disk_structure.go. -/
def valtype_int : Nat := 1

/-- Source `valtype_float` from disk_structure.go. -/
def valtype_float : Nat := 2

/-- Source `valtype_string` from disk_structure.go. -/
def valtype_string : Nat := 3

/-- Section identifiers from disk_structure.go. -/
def section_header : Nat := 1

def section_dictionary : Nat := 2

def section_haybale : Nat := 3

def section_sha512 : Nat := 254

def section_trailer : Nat := 255

/-- ASCII lower-casing of one character (`A`..`Z` to `a`..`z`). -/
def charToLower (c : Char) : Char :=
  if 65 ≤ c.toNat ∧ c.toNat ≤ 90 then Char.ofNat (c.toNat + 32) else c

/-- Model of `strings.ToLower` (and, via equality of the results, of
`strings.EqualFold`): ASCII lower-casing, character by character.  The Go
functions apply full Unicode case mapping; they agree on ASCII, and every
concrete string below is ASCII. -/
def goToLower (s : String) : String := ⟨s.data.map charToLower⟩

/-- Go `float64` restricted to its ordering behaviour: `nan` compares false
with everything (including itself), the infinities bound the finite values,
and a finite value is carried as an exact rational. -/
inductive GoFloat where
  | nan : GoFloat
  | neginf : GoFloat
  | fin (q : ℚ) : GoFloat
  | inf : GoFloat
deriving DecidableEq

/-- Go `<` on float64: false whenever either side is NaN. -/
def GoFloat.lt : GoFloat → GoFloat → Bool
  | .nan, _ => false
  | _, .nan => false
  | .neginf, .neginf => false
  | .neginf, _ => true
  | .fin _, .neginf => false
  | .fin a, .fin b => a < b
  | .fin _, .inf => true
  | .inf, _ => false

/-- Source `Val` from mem_structure.go: a valtype tag plus all three value slots. -/
structure Val where
  valtype : Nat
  intval : Int
  floatval : GoFloat
  stringval : Option String
deriving DecidableEq

/-- The zero `Val` (Go zero value: valtype 0, 0, 0.0, nil). -/
def Val.zero : Val := ⟨0, 0, .fin 0, none⟩

/-- Source `Val.GetInt` from the access methods: the stored int if the valtype
matches, otherwise 0. -/
def Val.GetInt (v : Val) : Int :=
  if v.valtype ≠ valtype_int then 0 else v.intval

/-- Source `Val.GetFloat`: the stored float if the valtype matches, otherwise 0.0. -/
def Val.GetFloat (v : Val) : GoFloat :=
  if v.valtype ≠ valtype_float then .fin 0 else v.floatval

/-- Source `Val.GetString`: the stored string pointer if the valtype matches,
otherwise nil. -/
def Val.GetString (v : Val) : Option String :=
  if v.valtype ≠ valtype_string then none else v.stringval

/-- Source `Val.SetInt`. -/
def Val.SetInt (v : Val) (i : Int) : Val :=
  { v with valtype := valtype_int, intval := i }

/-- Source `Val.SetFloat`. -/
def Val.SetFloat (v : Val) (f : GoFloat) : Val :=
  { v with valtype := valtype_float, floatval := f }

/-- Source `Val.SetString`. -/
def Val.SetString (v : Val) (s : Option String) : Val :=
  { v with valtype := valtype_string, stringval := s }

/-- Source `Haystalk` from mem_structure.go. -/
structure Haystalk where
  dkey : Nat
  val : Val
  self_ofs : Nat
  first_ofs : Nat
  next_ofs : Nat
deriving DecidableEq

/-- Source `Haystalk.Compare` (mem_compare.go): three-way compare of
(dkey, valtype, value); string values compare case-insensitively
(`EqualFold` fast path, then lower-cased ordering).  The Go `default`
branch panics; it is unreachable for the three declared valtypes and is
modelled as 0. A nil `stringval` on a string-typed stalk would make Go
panic on dereference; the model reads it as "". -/
def Haystalk.Compare (p hv : Haystalk) : Int :=
  if p.dkey > hv.dkey then 1
  else if p.dkey < hv.dkey then -1
  else if p.val.valtype > hv.val.valtype then 1
  else if p.val.valtype < hv.val.valtype then -1
  else if p.val.valtype = valtype_int then
    let i1 := p.val.GetInt
    let i2 := hv.val.GetInt
    if i1 > i2 then 1 else if i1 < i2 then -1 else 0
  else if p.val.valtype = valtype_float then
    let f1 := p.val.GetFloat
    let f2 := hv.val.GetFloat
    if GoFloat.lt f2 f1 then 1 else if GoFloat.lt f1 f2 then -1 else 0
  else if p.val.valtype = valtype_string then
    let sv1 := (p.val.GetString).getD ""
    let sv2 := (hv.val.GetString).getD ""
    if goToLower sv1 = goToLower sv2 then 0
    else
      let l1 := goToLower sv1
      let l2 := goToLower sv2
      if l1 > l2 then 1 else if l1 < l2 then -1 else 0
  else 0

/-- Go `strconv.Atoi` (base-10 `ParseInt` into int64): optional single sign,
one or more ASCII digits, nothing else; int64 overflow is an error. -/
def goAtoi (s : String) : Option Int :=
  match s.data with
  | [] => none
  | c :: rest =>
    let p : Bool × List Char :=
      if c = '-' then (true, rest)
      else if c = '+' then (false, rest)
      else (false, c :: rest)
    if p.2.isEmpty then none
    else if p.2.all (fun d => d.isDigit) then
      let n : Nat := p.2.foldl (fun a d => a * 10 + (d.toNat - 48)) 0
      let v : Int := if p.1 then -(n : Int) else (n : Int)
      if v < -(2 ^ 63) ∨ v > 2 ^ 63 - 1 then none else some v
    else none

/-- Digit run to a natural number. -/
def digitsToNat (l : List Char) : Nat :=
  l.foldl (fun a d => a * 10 + (d.toNat - 48)) 0

/-- The decimal-mantissa/exponent part of Go `strconv.ParseFloat`:
`[sign] digits [. digits] [(e|E) [sign] digits]`, at least one mantissa
digit, no other characters.  The exact rational value is returned; the
hexadecimal float form and digit-group underscores are not modelled. -/
def goParseFloatCore (chars : List Char) : Option ℚ :=
  let sr : ℚ × List Char :=
    match chars with
    | '-' :: t => (-1, t)
    | '+' :: t => (1, t)
    | t => (1, t)
  let ip := sr.2.takeWhile Char.isDigit
  let rest1 := sr.2.dropWhile Char.isDigit
  let fr : List Char × List Char :=
    match rest1 with
    | '.' :: t => (t.takeWhile Char.isDigit, t.dropWhile Char.isDigit)
    | t => ([], t)
  if ip.length + fr.1.length = 0 then none
  else
    match fr.2 with
    | [] =>
      some (sr.1 * (digitsToNat (ip ++ fr.1) : ℚ) / (10 : ℚ) ^ fr.1.length)
    | e :: t =>
      if e = 'e' ∨ e = 'E' then
        let er : Int × List Char :=
          match t with
          | '-' :: u => (-1, u)
          | '+' :: u => (1, u)
          | u => (1, u)
        let eds := er.2.takeWhile Char.isDigit
        if eds.isEmpty ∨ ¬(er.2.dropWhile Char.isDigit).isEmpty then none
        else
          let ex : Int := er.1 * (digitsToNat eds : Int) - (fr.1.length : Int)
          some (sr.1 * (digitsToNat (ip ++ fr.1) : ℚ) * (10 : ℚ) ^ ex)
      else none

/-- Go `strconv.ParseFloat(s, 64)` as used by the ingest/search value rule:
special forms `nan` / `inf` / `infinity` (case-insensitive, signed for inf),
else the decimal form; a value whose magnitude overflows float64 carries
`ErrRange`, which the callers treat as failure (the overflow band near the
largest finite float64 is approximated by the bound `2^1024`). -/
def goParseFloat (s : String) : Option GoFloat :=
  let t := goToLower s
  if t = "nan" then some .nan
  else if t = "inf" ∨ t = "+inf" ∨ t = "infinity" ∨ t = "+infinity" then some .inf
  else if t = "-inf" ∨ t = "-infinity" then some .neginf
  else
    match goParseFloatCore s.data with
    | none => none
    | some q =>
      if q ≤ -((2 : ℚ) ^ 1024) ∨ ((2 : ℚ) ^ 1024) ≤ q then none else some (.fin q)

/-- UTF-8 encoding of one character (byte values as `Nat`). -/
def utf8Bytes (c : Char) : List Nat :=
  let n := c.toNat
  if n < 0x80 then [n]
  else if n < 0x800 then [0xC0 + n / 64, 0x80 + n % 64]
  else if n < 0x10000 then [0xE0 + n / 4096, 0x80 + (n / 64) % 64, 0x80 + n % 64]
  else [0xF0 + n / 262144, 0x80 + (n / 4096) % 64, 0x80 + (n / 64) % 64, 0x80 + n % 64]

/-- 32-bit FNV-1a over the UTF-8 bytes of a string (`hash/fnv`, `New32a`). -/
def fnv32a (s : String) : Nat :=
  ((s.data.map utf8Bytes).flatten).foldl (fun h b => ((h ^^^ b) * 16777619) % 2 ^ 32) 2166136261

/-- Source `Dictionary` from mem_structure.go: the 2^24-slot open-addressed table,
its parallel dirty bits and the key tally.  The fixed-size Go arrays are
modelled as total functions on slot numbers. -/
structure Dictionary where
  num_dkeys : Nat
  dkey : Nat → Option String
  dirty : Nat → Bool

/-- The Go zero-value Dictionary (all slots nil, nothing dirty). -/
def emptyDictionary : Dictionary :=
  { num_dkeys := 0, dkey := fun _ => none, dirty := fun _ => false }

/-- Source `Dictionary.findKeyhash`: FNV-1a of the (already lower-cased) key,
masked to 24 bits. -/
def Dictionary.findKeyhash (_d : Dictionary) (s : String) : Nat :=
  fnv32a s &&& hashkey_mask

/-- The probing loop of `Dictionary.KeyExists`: step `hash_skip` slots at a
time (masked to 24 bits) until an empty slot, a case-insensitive match, or
`hashtable_size` skips; exhaustion models the Go `panic` as `none`. -/
def Dictionary.probeSkip (d : Dictionary) (s : String) : Nat → Nat → Option (Nat × Bool)
  | _, 0 => none
  | h, fuel + 1 =>
    let h2 := (h + hash_skip) &&& hashkey_mask
    match d.dkey h2 with
    | none => some (h2, false)
    | some t => if goToLower t = s then some (h2, true) else d.probeSkip s h2 fuel

/-- Source `Dictionary.KeyExists`: lower-case the key, hash it, and probe.
Returns `(slot, true)` on a match, `(slot, false)` at the first empty slot,
`none` for the probe-exhaustion panic. -/
def Dictionary.KeyExists (d : Dictionary) (s0 : String) : Option (Nat × Bool) :=
  let s := goToLower s0
  let h := d.findKeyhash s
  match d.dkey h with
  | none => some (h, false)
  | some t => if goToLower t = s then some (h, true) else d.probeSkip s h hashtable_size

/-- Source `Dictionary.FindOrAddKeyhash`: on a miss, install the original-case key
in the empty slot found, mark it dirty and bump the tally.  The Go function
always reports success; the updated Dictionary is returned alongside. -/
def Dictionary.FindOrAddKeyhash (d : Dictionary) (s : String) : Option (Dictionary × Nat) :=
  match d.KeyExists s with
  | some (h, true) => some (d, h)
  | some (h, false) =>
    some ({ d with
            dkey := fun i => if i = h then some s else d.dkey i,
            dirty := fun i => if i = h then true else d.dirty i,
            num_dkeys := d.num_dkeys + 1 }, h)
  | none => none

/-- Source `Haybale` from mem_structure.go. -/
structure Haybale where
  num_haystalks : Nat
  is_sorted_immutable : Bool
  haystalk : List Haystalk
  time_first : Int
  time_last : Int
  Memsize : Nat

/-- The Go zero-value Haybale. -/
def emptyHaybale : Haybale :=
  { num_haystalks := 0, is_sorted_immutable := false, haystalk := [],
    time_first := 0, time_last := 0, Memsize := 0 }

/-- The Go zero-value Haystalk, used where the source indexes a slice slot. -/
def defaultHaystalk : Haystalk :=
  { dkey := 0, val := Val.zero, self_ofs := 0, first_ofs := 0, next_ofs := 0 }

/-- Source `Haybale.insertStalk` (mem_insert.go): intern the key, type the value
string (int, then float, then string with `[]`/`map[]` normalised to ""),
append the stalk at position `num_haystalks`, grow `Memsize` and clear the
sorted flag.  This is the part_005 variant (25 bytes per stalk; the
part_004 variant books ≈37 and also grows the owning Haystack's memsize,
differences that no theorem below touches).  `none` models the Go panic
when Dictionary probing fails; the
dead `!res` branch of the source cannot fire.  The source stores through
`p.haystalk[pos]` with `pos = num_haystalks`; the model appends, which is
the same operation whenever `num_haystalks` equals the slice length. -/
def Haybale.insertStalk (p : Haybale) (d : Dictionary) (k v : String) :
    Option (Dictionary × Haybale × Nat) :=
  match d.FindOrAddKeyhash k with
  | none => none
  | some (d2, dkey) =>
    let val : Val :=
      match goAtoi v with
      | some i => Val.zero.SetInt i
      | none =>
        match goParseFloat v with
        | some f => Val.zero.SetFloat f
        | none =>
          let v2 := if v = "[]" ∨ v = "map[]" then "" else v
          Val.zero.SetString (some v2)
    let size : Nat :=
      25 + (if val.valtype = valtype_string then 2 + ((val.stringval).getD "").utf8ByteSize else 0)
    let pos := p.num_haystalks
    let newstalk : Haystalk :=
      { dkey := dkey, val := val, self_ofs := pos,
        first_ofs := haystalk_ofs_nil, next_ofs := haystalk_ofs_nil }
    some (d2,
      { p with
        haystalk := p.haystalk ++ [newstalk],
        Memsize := (p.Memsize + size) % 2 ^ 32,
        num_haystalks := (p.num_haystalks + 1) % 2 ^ 32,
        is_sorted_immutable := false },
      pos)

/-- The per-field loop of `Haybale.InsertBunch`: every key other than
`_timestamp` is inserted as a stalk whose `first_ofs` points at the
`_timestamp` stalk and whose `next_ofs` continues a backwards chain; empty
keys are skipped and over-long keys panic (`none`).  Go map iteration
order is unspecified; the record is modelled as an association list in
iteration order. -/
def insertBunchLoop (d : Dictionary) (hb : Haybale) (first prev : Nat) :
    List (String × String) → Option (Dictionary × Haybale × Nat)
  | [] => some (d, hb, prev)
  | (k, v) :: rest =>
    if k = Timestamp_key then insertBunchLoop d hb first prev rest
    else if k.utf8ByteSize = 0 then insertBunchLoop d hb first prev rest
    else if k.utf8ByteSize > max_keylen then none
    else
      match hb.insertStalk d k v with
      | none => none
      | some (d2, hb2, pos) =>
        if pos ≠ haystalk_ofs_nil then
          let s := hb2.haystalk.getD pos defaultHaystalk
          let hb3 := { hb2 with
            haystalk := hb2.haystalk.set pos { s with first_ofs := first, next_ofs := prev } }
          insertBunchLoop d2 hb3 first pos rest
        else insertBunchLoop d2 hb2 first prev rest

/-- Source `Haybale.InsertBunch` (mem_insert.go): reject when the bale is already
immutable; silently ignore records without a `_timestamp` key; otherwise
insert the `_timestamp` stalk first (its `first_ofs` pointing to itself),
update the time bounds when the timestamp parses, insert the remaining
fields, and finally hook the chain onto the `_timestamp` stalk.  The
stdlib timestamp parser (`time.Parse` RFC-3339-nano) is passed in as
`parseTime` (returning UTC nanoseconds). -/
def Haybale.InsertBunch (parseTime : String → Option Int) (p : Haybale) (d : Dictionary)
    (flatmap : List (String × String)) : Option (Dictionary × Haybale) :=
  if p.is_sorted_immutable then some (d, p)
  else
    match flatmap.lookup Timestamp_key with
    | none => some (d, p)
    | some tsv =>
      match p.insertStalk d Timestamp_key tsv with
      | none => none
      | some (d1, hb1, first) =>
        let s1 := hb1.haystalk.getD first defaultHaystalk
        let hb2 := { hb1 with haystalk := hb1.haystalk.set first { s1 with first_ofs := first } }
        let hb3 :=
          match parseTime tsv with
          | some ts =>
            { hb2 with
              time_first := if hb2.time_first = 0 ∨ ts < hb2.time_first then ts else hb2.time_first,
              time_last := if ts > hb2.time_last then ts else hb2.time_last }
          | none => hb2
        match insertBunchLoop d1 hb3 first haystalk_ofs_nil flatmap with
        | none => none
        | some (d2, hb4, prev) =>
          let s4 := hb4.haystalk.getD first defaultHaystalk
          some (d2, { hb4 with haystalk := hb4.haystalk.set first { s4 with next_ofs := prev } })

/-- The comparison closure `SortBale` passes to `sort.Slice` in the
`Haystalk.Compare`-based variant of mem_insert.go. -/
def sortBaleLess (a b : Haystalk) : Bool := decide (a.Compare b < 0)

/-- One step of Go stdlib insertion sort: the new element `a` moves left
past `b` exactly while `less a b`.  The already-sorted prefix is carried
reversed, so the scan is from its right end, as in the Go code. -/
def goInsertRev (less : Haystalk → Haystalk → Bool) (a : Haystalk) :
    List Haystalk → List Haystalk
  | [] => [a]
  | b :: t => if less a b then b :: goInsertRev less a t else a :: b :: t

/-- Insertion sort over a reversed accumulator, processing the input left
to right as the Go stdlib does. -/
def goSortAux (less : Haystalk → Haystalk → Bool) (acc : List Haystalk) :
    List Haystalk → List Haystalk
  | [] => acc.reverse
  | a :: t => goSortAux less (goInsertRev less a acc) t

/-- Model of `sort.Slice(p.haystalk, less)`.  For slices of at most 12
elements every Go release runs exactly this insertion sort; for longer
slices the stdlib guarantees a result ordered consistently with `less`
whenever `less` is a strict weak order, a contract insertion sort also
fulfils, so every ordering theorem below transfers. -/
def goSortSlice (less : Haystalk → Haystalk → Bool) (l : List Haystalk) : List Haystalk :=
  goSortAux less [] l

/-- The `newold_map` pass of `SortBale`: position `i` of the sorted slice
is recorded at index `self_ofs` of the map (zero-initialised). -/
def buildNewOld (sorted : List Haystalk) : Nat → Nat :=
  (List.range sorted.length).foldl
    (fun m i =>
      let s := sorted.getD i defaultHaystalk
      if s.self_ofs ≠ haystalk_ofs_nil then fun j => if j = s.self_ofs then i else m j else m)
    (fun _ => 0)

/-- The pointer fix-up pass of `SortBale`: route non-nil `first_ofs` and
`next_ofs` through `newold_map`. -/
def fixStalk (newold : Nat → Nat) (s : Haystalk) : Haystalk :=
  { s with
    first_ofs := if s.first_ofs ≠ haystalk_ofs_nil then newold s.first_ofs else s.first_ofs,
    next_ofs := if s.next_ofs ≠ haystalk_ofs_nil then newold s.next_ofs else s.next_ofs }

/-- The adjacent string de-duplication pass of `SortBale`, returning the
rewritten stalks and the total bytes saved (`Memsize` is decremented by the
previous string length on every hit).  Sharing of the string pointer is
value-level in the model. -/
def dedupPass : Option String → List Haystalk → List Haystalk × Nat
  | _, [] => ([], 0)
  | prev, s :: t =>
    if s.val.valtype = valtype_string then
      match prev with
      | none =>
        let r := dedupPass s.val.stringval t
        (s :: r.1, r.2)
      | some pstr =>
        if s.val.stringval = some pstr then
          let r := dedupPass (some pstr) t
          ({ s with val := { s.val with stringval := some pstr } } :: r.1,
           r.2 + pstr.utf8ByteSize)
        else
          let r := dedupPass s.val.stringval t
          (s :: r.1, r.2)
    else
      let r := dedupPass prev t
      (s :: r.1, r.2)

/-- Source `Haybale.SortBale`, `Haystalk.Compare`-based variant: no-op when already
immutable, otherwise sort with `sort.Slice`, rebuild the offset permutation,
rewrite offsets, de-dup adjacent strings, and mark the bale immutable. -/
def Haybale.SortBale (p : Haybale) : Haybale :=
  if p.is_sorted_immutable then p
  else
    let sorted := goSortSlice sortBaleLess p.haystalk
    let newold := buildNewOld sorted
    let fixed := sorted.map (fixStalk newold)
    let dd := dedupPass none fixed
    { p with
      haystalk := dd.1,
      Memsize := (p.Memsize + (2 ^ 32 - dd.2 % 2 ^ 32)) % 2 ^ 32,
      is_sorted_immutable := true }

/-- Source `Haystack` from mem_structure.go (the AES uuid plays no role in the
claims and is omitted). -/
structure Haystack where
  Dict : Dictionary
  Haybale : List Haybale
  memsize : Nat

/-- The trailer time-bound loop of `Haystack.Mem2Disk` (mem2disk.go,
lines 132-161), exactly as written: the first branch lowers the running
`time_first`; the second branch tests the bale against the running
`time_last` but then assigns the bale's `time_last` to `time_first`, so the
running `time_last` is never written.  The resulting pair is what is passed
to `mem2DiskFileTrailer`. -/
def mem2DiskTrailerTimes (bales : List Haybale) : Int × Int :=
  bales.foldl
    (fun tt hb =>
      let tf1 := if tt.1 = 0 ∨ hb.time_first < tt.1 then hb.time_first else tt.1
      let tf2 := if hb.time_last > tt.2 then hb.time_last else tf1
      (tf2, tt.2))
    (0, 0)

/-- The corresponding loop of the `diskWriter` routine (the Go-routines
file, `flush_haystack` branch), which updates `time_last` as intended. -/
def diskWriterTrailerTimes (bales : List Haybale) : Int × Int :=
  bales.foldl
    (fun tt hb =>
      let tf := if tt.1 = 0 ∨ hb.time_first < tt.1 then hb.time_first else tt.1
      let tl := if hb.time_last > tt.2 then hb.time_last else tt.2
      (tf, tl))
    (0, 0)

/-- The slots `Dictionary.Mem2Disk` serialises: every occupied slot for a
full section (`prev_ofs = 0`), only the occupied dirty slots for an
incremental one. -/
def dictEmittedSlots (d : Dictionary) (prev_ofs : Nat) : List Nat :=
  (List.range hashtable_size).filter fun i => (d.dkey i).isSome && (d.dirty i || prev_ofs == 0)

/-- Little-endian uint32, as laid down by `addMultibyteToData(_, v, 4)`. -/
def u32le (v : Nat) : List Nat :=
  [v % 256, v / 256 % 256, v / 65536 % 256, v / 16777216 % 256]

/-- One Dictionary entry as laid down by `addKeyToData`:
`dkey(3, LSB first) || name_len(1) || name bytes`. -/
def keyEntryBytes (i : Nat) (name : String) : List Nat :=
  [i % 256, i / 256 % 256, i / 65536 % 256] ++ [name.utf8ByteSize] ++
    (name.data.map utf8Bytes).flatten

/-- The plain (pre-compression) content `Dictionary.Mem2Disk` builds:
`prev_ofs(4)`, then the stored `num_dkeys` field — which the source takes
from the global tally `p.num_dkeys` — then the emitted entries.  Keys are
assumed within `max_keylen` (`addKeyToData` errors otherwise). -/
def Dictionary.mem2DiskContent (d : Dictionary) (prev_ofs : Nat) : List Nat :=
  u32le prev_ofs ++ u32le d.num_dkeys ++
    ((dictEmittedSlots d prev_ofs).map fun i => keyEntryBytes i ((d.dkey i).getD "")).flatten

/-- The dirty-bit clearing `Dictionary.Mem2Disk` performs on every emitted
slot. -/
def Dictionary.clearEmittedDirty (d : Dictionary) (prev_ofs : Nat) : Dictionary :=
  { d with
    dirty := fun i =>
      if (d.dkey i).isSome && (d.dirty i || prev_ofs == 0) then false else d.dirty i }

/-- The section-ordering state machine of `Haystack.getDisk2MemSections`
(disk2mem.go): one list entry per section frame, abstracted to its id byte.
The per-section framing checks (magic, length bounds, AEAD decryption,
CRC) and the three content decoders are orthogonal to the ordering logic
and are taken as passing here.  `prev` models `prev_section` (0 before the
first section); an empty remainder models the EOF error of the next header
read; a trailer stops parsing successfully whatever preceded it, because
the source `case section_trailer` checks nothing before `break trailer`. -/
def runSections (prev : Nat) : List Nat → Except String Unit
  | [] => .error "unexpected end of file while reading Haystack"
  | id :: rest =>
    if prev = 0 ∧ id ≠ section_header then
      .error "first section not header"
    else if id = section_header then runSections section_header rest
    else if id = section_dictionary then
      if prev ≠ section_header ∧ prev ≠ section_haybale then
        .error "Dictionary section can only follow a Header or Haybale"
      else runSections section_dictionary rest
    else if id = section_haybale then
      if prev ≠ section_dictionary then
        .error "Haybale section can only follow a Dictionary"
      else runSections section_haybale rest
    else if id = section_trailer then .ok ()
    else .error "unknown section type"

/-- Source `Haystack.getDisk2MemSections`, from the initial `prev_section = 0`. -/
def getDisk2MemSections (l : List Nat) : Except String Unit :=
  runSections 0 l

/-- Go float equality (`==`): false whenever either side is NaN. -/
def GoFloat.feq : GoFloat → GoFloat → Bool
  | .nan, _ => false
  | _, .nan => false
  | .neginf, .neginf => true
  | .inf, .inf => true
  | .fin a, .fin b => a == b
  | _, _ => false

/-- Go `>=` on float64: false whenever either side is NaN. -/
def GoFloat.ge (a b : GoFloat) : Bool :=
  GoFloat.lt b a || GoFloat.feq a b

/-- Go `sort.Search(n, f)`: the exact stdlib bisection.  It returns the
least index with `f` true when `f` is monotone; for a non-monotone `f` it
returns whatever this bisection computes.  The interval halves every step,
so `n + 1` fuel can never run out. -/
def sortSearchAux (f : Nat → Bool) : Nat → Nat → Nat → Nat
  | 0, i, _ => i
  | fuel + 1, i, j =>
    if i < j then
      let h := (i + j) / 2
      if f h then sortSearchAux f fuel i h else sortSearchAux f fuel (h + 1) j
    else i

def sortSearch (n : Nat) (f : Nat → Bool) : Nat :=
  sortSearchAux f (n + 1) 0 n

/-- Lexicographic strict order on character lists by codepoint, which for
valid UTF-8 equals Go byte-wise string `<`. -/
def charListLt : List Char → List Char → Bool
  | [], [] => false
  | [], _ :: _ => true
  | _ :: _, [] => false
  | a :: s, b :: t =>
    if a.toNat < b.toNat then true
    else if b.toNat < a.toNat then false
    else charListLt s t

/-- Go string `<`. -/
def goStrLt (a b : String) : Bool := charListLt a.data b.data

/-- The value-typing rule `SearchKeyVal` applies to its value argument
(int, then float, then string; unlike ingest, no `[]`/`map[]`
normalisation). -/
def searchParseVal (v : String) : Val :=
  match goAtoi v with
  | some i => Val.zero.SetInt i
  | none =>
    match goParseFloat v with
    | some f => Val.zero.SetFloat f
    | none => Val.zero.SetString (some v)

/-- The string projection `SearchKeyVal` computes from a stalk before the
`v != s` re-verification and during bunch emission: `%d` for ints, `%f`
(six decimals, supplied as `fmtFloat`) for floats, the raw string
otherwise.  The Go `switch` has no default; an undeclared valtype leaves
the previous loop value in `s`, modelled as "". -/
def stalkProjection (fmtFloat : GoFloat → String) (st : Haystalk) : String :=
  if st.val.valtype = valtype_int then toString st.val.GetInt
  else if st.val.valtype = valtype_float then fmtFloat st.val.GetFloat
  else if st.val.valtype = valtype_string then (st.val.GetString).getD ""
  else ""

/-- The bunch walk of `SearchKeyVal`: from `first_ofs` follow `next_ofs`
until NIL, collecting `(key name, projected value)` pairs and noting
whether the searched dkey was spotted.  The source builds a Go map and
JSON-prints it; the model keeps the visited pairs in traversal order.
Fuel exhaustion (`none`) models divergence on a cyclic chain. -/
def walkBunch (fmtFloat : GoFloat → String) (dict : Dictionary) (hb : Haybale) (dkey : Nat) :
    Nat → Nat → Option (List (String × String) × Bool)
  | _, 0 => none
  | k, fuel + 1 =>
    if k = haystalk_ofs_nil then some ([], false)
    else
      let st := hb.haystalk.getD k defaultHaystalk
      let name := (dict.dkey st.dkey).getD ""
      let sv := stalkProjection fmtFloat st
      match walkBunch fmtFloat dict hb dkey st.next_ofs fuel with
      | none => none
      | some (rest, sp) => some ((name, sv) :: rest, sp || decide (st.dkey = dkey))

/-- The match loop of `SearchKeyVal`, from the `sort.Search` landing point:
continue while the stalk has the searched dkey and valtype; stop at the
first stalk whose string projection differs from `v`; emit the bunch of
every survivor.  A bunch that never shows the searched dkey is the
`spotted` panic (`none`). -/
def searchKVLoop (fmtFloat : GoFloat → String) (dict : Dictionary) (hb : Haybale)
    (dkey : Nat) (val : Val) (v : String) :
    Nat → Nat → Option (List (List (String × String)))
  | _, 0 => none
  | j, fuel + 1 =>
    let stalks := hb.num_haystalks
    let st := hb.haystalk.getD j defaultHaystalk
    if j < stalks ∧ st.dkey = dkey ∧ st.val.valtype = val.valtype then
      let s := stalkProjection fmtFloat st
      if v ≠ s then some []
      else
        match walkBunch fmtFloat dict hb dkey st.first_ofs (stalks + 1) with
        | none => none
        | some (bunch, spotted) =>
          if spotted then
            match searchKVLoop fmtFloat dict hb dkey val v (j + 1) fuel with
            | none => none
            | some rest => some (bunch :: rest)
          else none
    else some []

/-- The binary-search predicate closure of `SearchKeyVal`: raw (dkey,
valtype, value) comparison, with `>=` on the value — case-SENSITIVE for
strings, unlike `Haystalk.Compare`. -/
def searchKVPred (hb : Haybale) (dkey : Nat) (val : Val) (x : Nat) : Bool :=
  let hsx := hb.haystalk.getD x defaultHaystalk
  if hsx.dkey > dkey then true
  else if hsx.dkey < dkey then false
  else if hsx.val.valtype > val.valtype then true
  else if hsx.val.valtype < val.valtype then false
  else if hsx.val.valtype = valtype_int then decide (hsx.val.GetInt ≥ val.intval)
  else if hsx.val.valtype = valtype_float then GoFloat.ge hsx.val.GetFloat val.floatval
  else if hsx.val.valtype = valtype_string then
    !goStrLt ((hsx.val.GetString).getD "") ((val.stringval).getD "")
  else true

/-- The per-Haybale pass of `SearchKeyVal`; a non-immutable bale is the
source `panic` (`none`). -/
def searchKVBales (fmtFloat : GoFloat → String) (dict : Dictionary) (dkey : Nat)
    (val : Val) (v : String) : List Haybale → Option (List (List (String × String)))
  | [] => some []
  | hb :: rest =>
    if ¬ hb.is_sorted_immutable then none
    else
      let stalks := hb.num_haystalks
      let start := sortSearch stalks (searchKVPred hb dkey val)
      match searchKVLoop fmtFloat dict hb dkey val v start (stalks + 1) with
      | none => none
      | some ems =>
        match searchKVBales fmtFloat dict dkey val v rest with
        | none => none
        | some more => some (ems ++ more)

/-- Source `Haystack.SearchKeyVal` (mem_search.go): resolve the key in the
Dictionary (absent means no matches), type the value string, then binary
search and scan each Haybale.  The emissions are returned (the source
prints them as JSON); `none` models the panics. -/
def Haystack.SearchKeyVal (fmtFloat : GoFloat → String) (p : Haystack) (ks v : String) :
    Option (List (List (String × String))) :=
  match p.Dict.KeyExists ks with
  | none => none
  | some (_, false) => some []
  | some (dkey, true) =>
    let val := searchParseVal v
    searchKVBales fmtFloat p.Dict dkey val v p.Haybale

/-- A stalk whose float projection is not NaN.  `Haystalk.Compare` reads
float values only through `GetFloat`, and NaN is the one value on which its
float branch is not a total preorder. -/
def nanFreeStalk (s : Haystalk) : Prop := s.val.GetFloat ≠ GoFloat.nan

/-- Characterisation helper (not from the source): the strict value order
underlying the value branch of `Haystalk.Compare`, tag-dispatched on the
left argument. -/
def valLt (x y : Val) : Prop :=
  if x.valtype = valtype_int then x.GetInt < y.GetInt
  else if x.valtype = valtype_float then GoFloat.lt x.GetFloat y.GetFloat = true
  else if x.valtype = valtype_string then
    goToLower ((x.GetString).getD "") < goToLower ((y.GetString).getD "")
  else False

/-- Characterisation helper (not from the source): the reflexive value
order underlying the value branch of `Haystalk.Compare`. -/
def valLe (x y : Val) : Prop :=
  if x.valtype = valtype_int then x.GetInt ≤ y.GetInt
  else if x.valtype = valtype_float then GoFloat.lt y.GetFloat x.GetFloat = false
  else if x.valtype = valtype_string then
    goToLower ((x.GetString).getD "") ≤ goToLower ((y.GetString).getD "")
  else True

/-- The section-to-section transitions `getDisk2MemSections` actually
enforces for the section FOLLOWING `prev` (trailers excluded, they always
halt): a Header may follow anything, a Dictionary only a Header or a
Haybale, a Haybale only a Dictionary, and nothing else is admitted. -/
def goodSectionStep (prev cur : Nat) : Bool :=
  if cur = section_header then true
  else if cur = section_dictionary then
    decide (prev = section_header ∨ prev = section_haybale)
  else if cur = section_haybale then decide (prev = section_dictionary)
  else false

/-- An immutable empty Haybale, for exercising the immutability guard. -/
def hbImmutable : Haybale := { emptyHaybale with is_sorted_immutable := true }

/-- The Dictionary slot of the key "k". -/
def kslot : Nat := emptyDictionary.findKeyhash "k"

/-- A Dictionary holding exactly the key "k" at its hash slot. -/
def dictK : Dictionary :=
  { num_dkeys := 1, dkey := fun i => if i = kslot then some "k" else none,
    dirty := fun i => i == kslot }

/-- A single stalk carrying the string value "A" under key "k", forming a
one-stalk bunch (its `first_ofs` is itself, `next_ofs` is NIL). -/
def stalkA : Haystalk :=
  { dkey := kslot, val := Val.zero.SetString (some "A"), self_ofs := 0,
    first_ofs := 0, next_ofs := haystalk_ofs_nil }

/-- The probe stalk `SearchKeyVal` builds for the query value "a". -/
def stalkQa : Haystalk :=
  { dkey := kslot, val := Val.zero.SetString (some "a"), self_ofs := 0,
    first_ofs := 0, next_ofs := haystalk_ofs_nil }

/-- A sorted-immutable bale holding just `stalkA`. -/
def baleA : Haybale :=
  { num_haystalks := 1, is_sorted_immutable := true, haystalk := [stalkA],
    time_first := 1, time_last := 1, Memsize := 28 }

/-- A Haystack whose only stalk is "k" = "A". -/
def hsA : Haystack := { Dict := dictK, Haybale := [baleA], memsize := 28 }

/-- Float stalk used by the sort counterexample. -/
def cexFloatStalk (q : ℚ) (so : Nat) : Haystalk :=
  { dkey := 0, val := Val.zero.SetFloat (.fin q), self_ofs := so,
    first_ofs := haystalk_ofs_nil, next_ofs := haystalk_ofs_nil }

/-- NaN stalk used by the sort counterexample (reachable by ingesting the
value string "NaN", which `strconv.ParseFloat` accepts). -/
def cexNanStalk : Haystalk :=
  { dkey := 0, val := Val.zero.SetFloat .nan, self_ofs := 1,
    first_ofs := haystalk_ofs_nil, next_ofs := haystalk_ofs_nil }

/-- A writable bale holding float stalks 2.0, NaN, 1.0 in insertion order. -/
def cexBale : Haybale :=
  { emptyHaybale with
    num_haystalks := 3,
    haystalk := [cexFloatStalk 2 0, cexNanStalk, cexFloatStalk 1 2] }

/-- Int stalk used by the sort witness. -/
def wIntStalk (i : Int) (so : Nat) : Haystalk :=
  { dkey := 0, val := Val.zero.SetInt i, self_ofs := so,
    first_ofs := haystalk_ofs_nil, next_ofs := haystalk_ofs_nil }

/-- A writable NaN-free bale with int stalks 5, 3. -/
def wBale : Haybale :=
  { emptyHaybale with
    num_haystalks := 2,
    haystalk := [wIntStalk 5 0, wIntStalk 3 1] }

/-- A Haybale spanning timestamps 1 to 3. -/
def hb13 : Haybale := { emptyHaybale with time_first := 1, time_last := 3 }

/-- A Dictionary with two interned keys of which only "b" (slot 1) is
dirty; the state after "a" was already serialised in a previous section. -/
def cdict : Dictionary :=
  { num_dkeys := 2,
    dkey := fun i => if i = 0 then some "a" else if i = 1 then some "b" else none,
    dirty := fun i => i == 1 }

/-- The Dictionary and slot obtained by interning "foo" into the empty
Dictionary. -/
def dFooPair : Dictionary × Nat :=
  (emptyDictionary.FindOrAddKeyhash "foo").getD (emptyDictionary, 0)

/-- A concrete int-typed `Val` for the accessor witness. -/
def valW : Val := { valtype := valtype_int, intval := 5, floatval := .fin 7, stringval := some "x" }

/-- C10: the `Val` accessors are total selectors: each returns the stored
slot when the valtype matches and the Go zero value (0, 0.0, nil) when it
does not. -/
theorem val_accessors_total (v : Val) :
    (v.valtype = valtype_int → v.GetInt = v.intval) ∧
    (v.valtype ≠ valtype_int → v.GetInt = 0) ∧
    (v.valtype = valtype_float → v.GetFloat = v.floatval) ∧
    (v.valtype ≠ valtype_float → v.GetFloat = .fin 0) ∧
    (v.valtype = valtype_string → v.GetString = v.stringval) ∧
    (v.valtype ≠ valtype_string → v.GetString = none) := by
  unfold Val.GetInt Val.GetFloat Val.GetString
  refine ⟨fun h => ?_, fun h => ?_, fun h => ?_, fun h => ?_, fun h => ?_, fun h => ?_⟩ <;>
    simp [h]

/-- C10 witness: the accessors evaluated on a concrete int-typed `Val`. -/
theorem val_accessors_total_witness :
    valW.GetInt = 5 ∧ valW.GetFloat = .fin 0 ∧ valW.GetString = none :=
  ⟨(val_accessors_total valW).1 rfl,
   (val_accessors_total valW).2.2.2.1 (by decide),
   (val_accessors_total valW).2.2.2.2.2 (by decide)⟩

/-- C9: a record without a `_timestamp` key is silently ignored:
`InsertBunch` returns the Dictionary and the Haybale unchanged (in
particular `num_haystalks`, `Memsize`, `time_first` and `time_last` keep
their prior values and no stalk is appended). -/
theorem insertBunch_no_timestamp_noop (parseTime : String → Option Int)
    (d : Dictionary) (hb : Haybale) (m : List (String × String))
    (h : m.lookup Timestamp_key = none) :
    Haybale.InsertBunch parseTime hb d m = some (d, hb) := by
  unfold Haybale.InsertBunch
  split
  · rfl
  · rw [h]

/-- C9 witness: a concrete record lacking `_timestamp` leaves the empty
writable bale untouched. -/
theorem insertBunch_no_timestamp_noop_witness :
    Haybale.InsertBunch (fun _ => none) emptyHaybale emptyDictionary [("k", "v")] =
      some (emptyDictionary, emptyHaybale) :=
  insertBunch_no_timestamp_noop _ _ _ _ (by rfl)

/-- C7 counterexample: `insertStalk` itself does NOT reject an insert into
an immutable bale — called directly on one it appends a stalk (the count
goes 0 to 1, the slice grows) and, in this variant, even clears
`is_sorted_immutable`. -/
theorem insertStalk_ignores_immutable :
    hbImmutable.is_sorted_immutable = true ∧
      ((hbImmutable.insertStalk emptyDictionary "k" "v").map fun r =>
        (r.2.1.num_haystalks, r.2.1.is_sorted_immutable, (r.2.1.haystalk).length)) =
        some (1, false, 1) :=
  ⟨rfl, rfl⟩

/-- C7 (amended): immutability is enforced one level up: `InsertBunch` on
an immutable Haybale rejects the insert, returning bale and Dictionary
unchanged (so the flag is also never cleared through this interface). -/
theorem insertBunch_rejects_immutable (parseTime : String → Option Int)
    (d : Dictionary) (hb : Haybale) (m : List (String × String))
    (h : hb.is_sorted_immutable = true) :
    Haybale.InsertBunch parseTime hb d m = some (d, hb) := by
  unfold Haybale.InsertBunch
  rw [h]
  rfl

/-- C7 witness: a record WITH a `_timestamp` key still leaves an immutable
bale untouched. -/
theorem insertBunch_rejects_immutable_witness :
    Haybale.InsertBunch (fun _ => none) hbImmutable emptyDictionary
      [(Timestamp_key, "2023-06-01T00:00:00Z")] = some (emptyDictionary, hbImmutable) :=
  insertBunch_rejects_immutable _ _ _ _ rfl

/-- C3: the trailer time computation of `Haystack.Mem2Disk` assigns the
newer `time_last` to `time_first`: a Haystack spanning timestamps 1..3
yields the pair (3, 0) for the trailer instead of (1, 3); the sibling
`diskWriter` loop computes (1, 3) as the claim (and the spec) require. -/
theorem mem2Disk_trailer_times_bug :
    mem2DiskTrailerTimes [hb13] = (3, 0) ∧ diskWriterTrailerTimes [hb13] = (1, 3) :=
  ⟨rfl, rfl⟩

/-- C5 counterexample: the reader accepts a Trailer directly after the
Header, and also a second Header section mid-file; the claim says both
transitions must be rejected. -/
theorem getDisk2MemSections_header_trailer_accepted :
    getDisk2MemSections [section_header, section_trailer] = .ok () ∧
      getDisk2MemSections
        [section_header, section_dictionary, section_haybale,
         section_header, section_dictionary, section_haybale, section_trailer] = .ok () :=
  ⟨rfl, rfl⟩

/-- C2: `SearchKeyVal` misses a value that matches only case-insensitively:
with the store holding "k" = "A", the query ("k", "a") emits nothing, even
though the stored stalk compares EQUAL to the probe stalk under the store's
value comparison `Haystalk.Compare` (case-insensitive for strings), and the
exact-case query ("k", "A") does emit the bunch.  The binary-search closure
and the `v != s` re-verification both compare case-sensitively. -/
theorem searchKeyVal_case_insensitive_bug :
    (∀ fmtFloat, hsA.SearchKeyVal fmtFloat "k" "a" = some []) ∧
      stalkA.Compare stalkQa = 0 ∧
      (∀ fmtFloat, hsA.SearchKeyVal fmtFloat "k" "A" = some [[("k", "A")]]) :=
  ⟨fun _ => rfl, by decide, fun _ => rfl⟩

/-- C1 counterexample: `SortBale` on a Haybale holding float values
2.0, NaN, 1.0 (insertion order; reachable because ingesting the value
string "NaN" passes `strconv.ParseFloat`): NaN compares unordered against
everything, `sort.Slice`'s insertion sort therefore moves nothing, and the
finalised immutable bale has `Compare(stalk[0], stalk[2]) = 1 > 0`. -/
theorem sortBale_nan_counterexample :
    cexBale.is_sorted_immutable = false ∧
      ((cexBale.SortBale).haystalk.getD 0 defaultHaystalk).Compare
        ((cexBale.SortBale).haystalk.getD 2 defaultHaystalk) = 1 ∧
      (cexBale.SortBale).is_sorted_immutable = true :=
  ⟨rfl, by decide, rfl⟩

/-- Probing that reports a miss stopped at an empty slot. -/
theorem probeSkip_false_empty (d : Dictionary) (s : String) :
    ∀ (fuel h0 h : Nat), d.probeSkip s h0 fuel = some (h, false) → d.dkey h = none := by
  intro fuel
  induction fuel with
  | zero =>
    intro h0 h hp
    simp [Dictionary.probeSkip] at hp
  | succ n ih =>
    intro h0 h hp
    rw [Dictionary.probeSkip] at hp
    rcases hdk : d.dkey ((h0 + hash_skip) &&& hashkey_mask) with _ | t
    · rw [hdk] at hp
      simp only [Option.some.injEq, Prod.mk.injEq] at hp
      rw [← hp.1]
      exact hdk
    · rw [hdk] at hp
      by_cases ht : goToLower t = s
      · simp [ht] at hp
      · simp only [ht, if_false] at hp
        exact ih _ _ hp

/-- Probing that reports a hit stopped at a case-insensitive match. -/
theorem probeSkip_true_match (d : Dictionary) (s : String) :
    ∀ (fuel h0 h : Nat), d.probeSkip s h0 fuel = some (h, true) →
      ∃ t, d.dkey h = some t ∧ goToLower t = s := by
  intro fuel
  induction fuel with
  | zero =>
    intro h0 h hp
    simp [Dictionary.probeSkip] at hp
  | succ n ih =>
    intro h0 h hp
    rw [Dictionary.probeSkip] at hp
    rcases hdk : d.dkey ((h0 + hash_skip) &&& hashkey_mask) with _ | t
    · rw [hdk] at hp
      simp at hp
    · rw [hdk] at hp
      by_cases ht : goToLower t = s
      · simp only [ht, if_true] at hp
        simp only [Option.some.injEq, Prod.mk.injEq] at hp
        exact ⟨t, by rw [← hp.1]; exact hdk, ht⟩
      · simp only [ht, if_false] at hp
        exact ih _ _ hp

/-- Probing is unchanged by installing the key at the reported empty slot,
except that the stop becomes a hit: every earlier probed slot was occupied
and differs from the installed slot. -/
theorem probeSkip_install (d d2 : Dictionary) (s : String) (h : Nat)
    (hat : ∃ t, d2.dkey h = some t ∧ goToLower t = s)
    (hoth : ∀ i, i ≠ h → d2.dkey i = d.dkey i) :
    ∀ (fuel h0 : Nat), d.probeSkip s h0 fuel = some (h, false) →
      d2.probeSkip s h0 fuel = some (h, true) := by
  intro fuel
  induction fuel with
  | zero =>
    intro h0 hp
    simp [Dictionary.probeSkip] at hp
  | succ n ih =>
    intro h0 hp
    rw [Dictionary.probeSkip] at hp
    rw [Dictionary.probeSkip]
    rcases hdk : d.dkey ((h0 + hash_skip) &&& hashkey_mask) with _ | t
    · rw [hdk] at hp
      simp only [Option.some.injEq, Prod.mk.injEq] at hp
      obtain ⟨t2, ht2, hlow⟩ := hat
      rw [hp.1, ht2]
      simp [hlow, hp.1]
    · rw [hdk] at hp
      by_cases ht : goToLower t = s
      · simp [ht] at hp
      · simp only [ht, if_false] at hp
        have hne : (h0 + hash_skip) &&& hashkey_mask ≠ h := by
          intro heq
          have hemp := probeSkip_false_empty d s n _ h hp
          rw [← heq] at hemp
          rw [hemp] at hdk
          exact Option.noConfusion hdk
        rw [hoth _ hne, hdk]
        simp only [ht, if_false]
        exact ih _ hp

/-- What the slot reported by `KeyExists` holds: the matching key on a hit,
nothing on a miss. -/
theorem keyExists_spec (d : Dictionary) (s0 : String) (h : Nat) (b : Bool)
    (hk : d.KeyExists s0 = some (h, b)) :
    (b = true → ∃ t, d.dkey h = some t ∧ goToLower t = goToLower s0) ∧
    (b = false → d.dkey h = none) := by
  rw [Dictionary.KeyExists] at hk
  rcases hdk : d.dkey (d.findKeyhash (goToLower s0)) with _ | t
  · rw [hdk] at hk
    simp only [Option.some.injEq, Prod.mk.injEq] at hk
    refine ⟨fun hb => ?_, fun _ => ?_⟩
    · rw [hb] at hk; exact absurd hk.2 (by simp)
    · rw [← hk.1]; exact hdk
  · rw [hdk] at hk
    by_cases ht : goToLower t = goToLower s0
    · simp only [ht, if_true, Option.some.injEq, Prod.mk.injEq] at hk
      refine ⟨fun _ => ⟨t, by rw [← hk.1]; exact hdk, ht⟩, fun hb => ?_⟩
      rw [← hk.2] at hb; simp at hb
    · simp only [ht, if_false] at hk
      refine ⟨fun hb => ?_, fun hb => ?_⟩
      · rw [hb] at hk
        exact probeSkip_true_match d _ _ _ _ hk
      · rw [hb] at hk
        exact probeSkip_false_empty d _ _ _ _ hk

/-- After installing the key at the empty slot `KeyExists` reported, the
same lookup is a hit at the same slot. -/
theorem keyExists_install (d d2 : Dictionary) (s0 : String) (h : Nat)
    (hk : d.KeyExists s0 = some (h, false))
    (hat : d2.dkey h = some s0)
    (hoth : ∀ i, i ≠ h → d2.dkey i = d.dkey i) :
    d2.KeyExists s0 = some (h, true) := by
  rw [Dictionary.KeyExists] at hk
  rw [Dictionary.KeyExists]
  have hfk : d2.findKeyhash (goToLower s0) = d.findKeyhash (goToLower s0) := rfl
  rw [hfk]
  rcases hdk : d.dkey (d.findKeyhash (goToLower s0)) with _ | t
  · rw [hdk] at hk
    simp only [Option.some.injEq, Prod.mk.injEq] at hk
    rw [hk.1, hat]
    simp
  · rw [hdk] at hk
    by_cases ht : goToLower t = goToLower s0
    · simp only [ht, if_true, Option.some.injEq, Prod.mk.injEq] at hk
      exact absurd hk.2 (by simp)
    · simp only [ht, if_false] at hk
      have hne : d.findKeyhash (goToLower s0) ≠ h := by
        intro heq
        have hemp := probeSkip_false_empty d _ _ _ _ hk
        rw [← heq] at hemp
        rw [hemp] at hdk
        exact Option.noConfusion hdk
      rw [hoth _ hne, hdk]
      simp only [ht, if_false]
      exact probeSkip_install d d2 (goToLower s0) h ⟨s0, hat, rfl⟩ hoth _ _ hk

/-- C8: after `FindOrAddKeyhash(k1)` returns slot `h1`, `KeyExists(k1)`
returns `(h1, true)`; and a `KeyExists(k2)` for a key that differs from
`k1` after lower-casing never lands on slot `h1` — distinct keys never
collapse to the same slot.  The hypotheses require the probes to succeed
(a free probe slot exists; exhaustion panics in Go) and the claim's key
length bound. -/
theorem findOrAdd_keyExists_agree (d : Dictionary) (k1 k2 : String) (d1 : Dictionary) (h1 : Nat)
    (hlen : k1.utf8ByteSize ≤ max_keylen)
    (hfa : d.FindOrAddKeyhash k1 = some (d1, h1))
    (hne : goToLower k1 ≠ goToLower k2)
    (h2 : Nat) (b : Bool)
    (hke : d1.KeyExists k2 = some (h2, b)) :
    d1.KeyExists k1 = some (h1, true) ∧ h2 ≠ h1 := by
  rw [Dictionary.FindOrAddKeyhash] at hfa
  rcases hex : d.KeyExists k1 with _ | ⟨h, bb⟩
  · rw [hex] at hfa; exact absurd hfa (by simp)
  · rw [hex] at hfa
    cases bb with
    | true =>
      simp only [Option.some.injEq, Prod.mk.injEq] at hfa
      obtain ⟨hd1, hh1⟩ := hfa
      have hself : ∃ t, d1.dkey h1 = some t ∧ goToLower t = goToLower k1 := by
        rw [← hd1, ← hh1]
        exact (keyExists_spec d k1 h true hex).1 rfl
      have hfirst : d1.KeyExists k1 = some (h1, true) := by
        rw [← hd1, ← hh1]; exact hex
      refine ⟨hfirst, ?_⟩
      obtain ⟨t, hth, htl⟩ := hself
      intro heq
      rcases (keyExists_spec d1 k2 h2 b hke) with ⟨hbt, hbf⟩
      cases b with
      | true =>
        obtain ⟨t2, ht2, htl2⟩ := hbt rfl
        rw [heq, hth] at ht2
        have ht2t : t2 = t := by injection ht2 with hh; exact hh.symm
        rw [ht2t, htl] at htl2
        exact hne htl2
      | false =>
        have hxx := hbf rfl
        rw [heq, hth] at hxx
        exact Option.noConfusion hxx
    | false =>
      simp only [Option.some.injEq, Prod.mk.injEq] at hfa
      obtain ⟨hd1, hh1⟩ := hfa
      have hat : d1.dkey h1 = some k1 := by rw [← hd1, ← hh1]; simp
      have hoth : ∀ i, i ≠ h1 → d1.dkey i = d.dkey i := by
        intro i hi
        rw [← hh1] at hi
        rw [← hd1]
        simp [hi]
      have hins : d1.KeyExists k1 = some (h1, true) := by
        rw [← hh1] at hat hoth ⊢
        exact keyExists_install d d1 k1 h hex hat hoth
      refine ⟨hins, ?_⟩
      intro heq
      rcases (keyExists_spec d1 k2 h2 b hke) with ⟨hbt, hbf⟩
      cases b with
      | true =>
        obtain ⟨t2, ht2, htl2⟩ := hbt rfl
        rw [heq, hat] at ht2
        have ht2t : t2 = k1 := by injection ht2 with hh; exact hh.symm
        rw [ht2t] at htl2
        exact hne htl2
      | false =>
        have hxx := hbf rfl
        rw [heq, hat] at hxx
        exact Option.noConfusion hxx

/-- C8 witness: interning "foo" into the empty Dictionary, then looking up
"foo" and "bar". -/
theorem findOrAdd_keyExists_agree_witness :
    (dFooPair.1).KeyExists "foo" = some (dFooPair.2, true) ∧
      emptyDictionary.findKeyhash "bar" ≠ dFooPair.2 :=
  findOrAdd_keyExists_agree emptyDictionary "foo" "bar" dFooPair.1 dFooPair.2
    (by decide) (by rfl) (by decide) (emptyDictionary.findKeyhash "bar") false (by rfl)

/-- From a non-initial state, an accepting run consumes a (possibly empty)
run of sections whose every adjacent transition the machine admits, then a
trailer; no trailer occurs earlier. -/
theorem runSections_ok_structure :
    ∀ (l : List Nat) (prev : Nat), prev ≠ 0 → runSections prev l = .ok () →
      ∃ pre rest, l = pre ++ section_trailer :: rest ∧ section_trailer ∉ pre ∧
        List.Chain' (fun a b => goodSectionStep a b = true) (prev :: pre) := by
  intro l
  induction l with
  | nil =>
    intro prev hprev h
    simp [runSections] at h
  | cons id rest ih =>
    intro prev hprev h
    rw [runSections] at h
    rw [if_neg (by simp [hprev])] at h
    by_cases h1 : id = section_header
    · rw [if_pos h1] at h
      obtain ⟨pre, rest2, hl, hmem, hch⟩ := ih section_header (by simp [section_header]) h
      refine ⟨section_header :: pre, rest2, ?_, ?_, ?_⟩
      · rw [h1, hl]; rfl
      · intro hmem2
        rcases List.mem_cons.mp hmem2 with heq | hmem3
        · exact absurd heq (by simp [section_header, section_trailer])
        · exact hmem hmem3
      · exact List.Chain'.cons (by simp [goodSectionStep]) hch
    · rw [if_neg h1] at h
      by_cases h2 : id = section_dictionary
      · rw [if_pos h2] at h
        by_cases hp2 : prev ≠ section_header ∧ prev ≠ section_haybale
        · rw [if_pos hp2] at h; exact absurd h (by simp)
        · rw [if_neg hp2] at h
          obtain ⟨pre, rest2, hl, hmem, hch⟩ := ih section_dictionary (by simp [section_dictionary]) h
          refine ⟨section_dictionary :: pre, rest2, ?_, ?_, ?_⟩
          · rw [h2, hl]; rfl
          · intro hmem2
            rcases List.mem_cons.mp hmem2 with heq | hmem3
            · exact absurd heq (by simp [section_dictionary, section_trailer])
            · exact hmem hmem3
          · refine List.Chain'.cons ?_ hch
            push_neg at hp2
            have hd : prev = section_header ∨ prev = section_haybale := by
              by_cases hph : prev = section_header
              · exact Or.inl hph
              · exact Or.inr (hp2 hph)
            rcases hd with hd | hd <;>
              simp [goodSectionStep, section_dictionary, section_header,
                section_haybale, hd]
      · rw [if_neg h2] at h
        by_cases h3 : id = section_haybale
        · rw [if_pos h3] at h
          by_cases hp3 : prev ≠ section_dictionary
          · rw [if_pos hp3] at h; exact absurd h (by simp)
          · rw [if_neg hp3] at h
            push_neg at hp3
            obtain ⟨pre, rest2, hl, hmem, hch⟩ := ih section_haybale (by simp [section_haybale]) h
            refine ⟨section_haybale :: pre, rest2, ?_, ?_, ?_⟩
            · rw [h3, hl]; rfl
            · intro hmem2
              rcases List.mem_cons.mp hmem2 with heq | hmem3
              · exact absurd heq (by simp [section_haybale, section_trailer])
              · exact hmem hmem3
            · exact List.Chain'.cons (by simp [goodSectionStep, hp3, section_haybale, section_dictionary, section_header]) hch
        · rw [if_neg h3] at h
          by_cases h5 : id = section_trailer
          · refine ⟨[], rest, by rw [h5]; rfl, by simp, ?_⟩
            simp [List.chain'_singleton]
          · rw [if_neg h5] at h
            exact absurd h (by simp)

/-- C5 (amended): every input `getDisk2MemSections` accepts starts with a
Header and, up to the halting Trailer, takes only transitions admitted by
`goodSectionStep` — so an input whose first section is not a Header, or
containing a Dictionary not right after a Header/Haybale, or a Haybale not
right after a Dictionary, or an unknown id before the Trailer, is rejected.
Contrary to the claim, a Trailer is admitted after ANY section and a
repeated Header is admitted (see the counterexample). -/
theorem getDisk2MemSections_accept_structure (l : List Nat)
    (h : getDisk2MemSections l = .ok ()) :
    ∃ pre rest, l = pre ++ section_trailer :: rest ∧ pre ≠ [] ∧
      pre.head? = some section_header ∧ section_trailer ∉ pre ∧
      List.Chain' (fun a b => goodSectionStep a b = true) pre := by
  rw [getDisk2MemSections] at h
  cases l with
  | nil => simp [runSections] at h
  | cons id rest =>
    rw [runSections] at h
    by_cases h1 : id = section_header
    · rw [if_neg (by simp [h1, section_header])] at h
      rw [if_pos h1] at h
      obtain ⟨pre, rest2, hl, hmem, hch⟩ :=
        runSections_ok_structure rest section_header (by simp [section_header]) h
      refine ⟨section_header :: pre, rest2, ?_, by simp, by simp, ?_, hch⟩
      · rw [h1, hl]; rfl
      · intro hmem2
        rcases List.mem_cons.mp hmem2 with heq | hmem3
        · exact absurd heq (by simp [section_header, section_trailer])
        · exact hmem hmem3
    · rw [if_pos (by exact ⟨rfl, h1⟩)] at h
      exact absurd h (by simp)

/-- C5 witness: the canonical Header-Dictionary-Haybale-Trailer file. -/
theorem getDisk2MemSections_accept_structure_witness :
    ∃ pre rest,
      [section_header, section_dictionary, section_haybale, section_trailer] =
        pre ++ section_trailer :: rest ∧ pre ≠ [] ∧
      pre.head? = some section_header ∧ section_trailer ∉ pre ∧
      List.Chain' (fun a b => goodSectionStep a b = true) pre :=
  getDisk2MemSections_accept_structure _ (by rfl)

/-- A range filter whose predicate holds at exactly one in-range index
keeps exactly that index. -/
theorem filter_range_single (p : Nat → Bool) (a : Nat) (hp : ∀ i, p i = true ↔ i = a) :
    ∀ n, a < n → (List.range n).filter p = [a] := by
  intro n
  induction n with
  | zero => intro h; omega
  | succ m ih =>
    intro h
    rw [List.range_succ, List.filter_append]
    by_cases ham : a = m
    · have hnil : (List.range m).filter p = [] := by
        rw [List.filter_eq_nil_iff]
        intro i hi
        intro hpi
        have := (hp i).mp hpi
        rw [List.mem_range] at hi
        omega
      have hm : p m = true := (hp m).mpr ham.symm
      rw [hnil, ham]
      simp [List.filter, hm]
    · have h2 : a < m := by omega
      rw [ih h2]
      have hm : p m = false := by
        cases hpm : p m with
        | false => rfl
        | true => exact absurd ((hp m).mp hpm) (fun he => ham he.symm)
      simp [List.filter, hm]

/-- For the incremental section of `cdict` only the dirty slot 1 is
serialised. -/
theorem dictEmittedSlots_cdict : dictEmittedSlots cdict 7 = [1] := by
  rw [dictEmittedSlots]
  apply filter_range_single
  · intro i
    constructor
    · intro hpi
      by_cases h0 : i = 0
      · rw [h0] at hpi; simp [cdict] at hpi
      · by_cases h1 : i = 1
        · exact h1
        · simp [cdict, h0, h1] at hpi
    · intro hi; rw [hi]; simp [cdict]
  · norm_num [hashtable_size]

/-- C4: an incremental Dictionary section (`prev_ofs = 7 != 0`) of a
Dictionary with two interned keys of which one is dirty serialises exactly
one entry, but its stored `num_dkeys` field is the global tally 2 — the
count written does not equal the number of entries serialised (and the
reader `getDisk2MemDictionary` consumes `num_dkeys` entries, so it
over-reads such a section). -/
theorem dictionary_mem2Disk_num_dkeys_bug :
    cdict.num_dkeys = 2 ∧ (dictEmittedSlots cdict 7).length = 1 ∧
      Dictionary.mem2DiskContent cdict 7 = u32le 7 ++ u32le 2 ++ keyEntryBytes 1 "b" := by
  refine ⟨rfl, ?_, ?_⟩
  · rw [dictEmittedSlots_cdict]; rfl
  · rw [Dictionary.mem2DiskContent, dictEmittedSlots_cdict]
    rfl

/-- Go float `<` is asymmetric (also through NaN, where it is constant
false). -/
theorem goFloatLt_asymm (a b : GoFloat) (h : GoFloat.lt a b = true) : GoFloat.lt b a = false := by
  cases a <;> cases b <;> simp_all [GoFloat.lt] <;> linarith

/-- Negative transitivity of Go float `<` away from NaN. -/
theorem goFloatLt_trans_neg (a b c : GoFloat) (ha : a ≠ .nan) (hb : b ≠ .nan) (hc : c ≠ .nan)
    (h1 : GoFloat.lt b a = false) (h2 : GoFloat.lt c b = false) : GoFloat.lt c a = false := by
  cases a <;> cases b <;> cases c <;> simp_all [GoFloat.lt] <;> linarith

/-- Value of `Compare` on a smaller dkey. -/
theorem compare_dkey_lt (a b : Haystalk) (hd : a.dkey < b.dkey) : a.Compare b = -1 := by
  rw [Haystalk.Compare, if_neg (by omega), if_pos hd]

/-- Value of `Compare` on a larger dkey. -/
theorem compare_dkey_gt (a b : Haystalk) (hd : b.dkey < a.dkey) : a.Compare b = 1 := by
  rw [Haystalk.Compare, if_pos hd]

/-- Value of `Compare` on equal dkeys and a smaller valtype. -/
theorem compare_vt_lt (a b : Haystalk) (hd : a.dkey = b.dkey)
    (ht : a.val.valtype < b.val.valtype) : a.Compare b = -1 := by
  rw [Haystalk.Compare, if_neg (by omega), if_neg (by omega), if_neg (by omega), if_pos ht]

/-- Value of `Compare` on equal dkeys and a larger valtype. -/
theorem compare_vt_gt (a b : Haystalk) (hd : a.dkey = b.dkey)
    (ht : b.val.valtype < a.val.valtype) : a.Compare b = 1 := by
  rw [Haystalk.Compare, if_neg (by omega), if_neg (by omega), if_pos ht]

/-- With equal dkeys and valtypes, `Compare ≤ 0` is the value order
`valLe`. -/
theorem compare_eq_tags_le_iff (a b : Haystalk) (hd : a.dkey = b.dkey)
    (ht : a.val.valtype = b.val.valtype) :
    (a.Compare b ≤ 0 ↔ valLe a.val b.val) := by
  rw [Haystalk.Compare]
  rw [if_neg (by omega), if_neg (by omega), if_neg (by omega), if_neg (by omega)]
  dsimp only
  rw [valLe]
  by_cases h1 : a.val.valtype = valtype_int
  · rw [if_pos h1, if_pos h1]
    split_ifs <;> constructor <;> intro <;> omega
  · rw [if_neg h1, if_neg h1]
    by_cases h2 : a.val.valtype = valtype_float
    · rw [if_pos h2, if_pos h2]
      cases hgt : GoFloat.lt (b.val.GetFloat) (a.val.GetFloat) with
      | true => simp [hgt]
      | false =>
        rw [if_neg (by simp [hgt])]
        split_ifs <;> simp
    · rw [if_neg h2, if_neg h2]
      by_cases h3 : a.val.valtype = valtype_string
      · rw [if_pos h3, if_pos h3]
        by_cases he : goToLower ((a.val.GetString).getD "") = goToLower ((b.val.GetString).getD "")
        · rw [if_pos he]
          simp [le_of_eq he]
        · rw [if_neg he]
          rcases lt_trichotomy (goToLower ((a.val.GetString).getD ""))
              (goToLower ((b.val.GetString).getD "")) with hlt | heq | hgt
          · rw [if_neg (by exact not_lt.mpr (le_of_lt hlt)), if_pos hlt]
            simp [le_of_lt hlt]
          · exact absurd heq he
          · rw [if_pos hgt]
            constructor
            · intro hc; norm_num at hc
            · intro hle; exact absurd hgt (not_lt.mpr hle)
      · rw [if_neg h3, if_neg h3]
        simp

/-- With equal dkeys and valtypes, `Compare < 0` is the strict value order
`valLt`. -/
theorem compare_eq_tags_lt_iff (a b : Haystalk) (hd : a.dkey = b.dkey)
    (ht : a.val.valtype = b.val.valtype) :
    (a.Compare b < 0 ↔ valLt a.val b.val) := by
  rw [Haystalk.Compare]
  rw [if_neg (by omega), if_neg (by omega), if_neg (by omega), if_neg (by omega)]
  dsimp only
  rw [valLt]
  by_cases h1 : a.val.valtype = valtype_int
  · rw [if_pos h1, if_pos h1]
    split_ifs <;> constructor <;> intro <;> omega
  · rw [if_neg h1, if_neg h1]
    by_cases h2 : a.val.valtype = valtype_float
    · rw [if_pos h2, if_pos h2]
      cases hgt : GoFloat.lt (b.val.GetFloat) (a.val.GetFloat) with
      | true =>
        rw [if_pos rfl]
        have := goFloatLt_asymm _ _ hgt
        simp [this]
      | false =>
        rw [if_neg (by simp [hgt])]
        split_ifs with hlt <;> simp [hlt]
    · rw [if_neg h2, if_neg h2]
      by_cases h3 : a.val.valtype = valtype_string
      · rw [if_pos h3, if_pos h3]
        by_cases he : goToLower ((a.val.GetString).getD "") = goToLower ((b.val.GetString).getD "")
        · rw [if_pos he]
          simp [he]
        · rw [if_neg he]
          rcases lt_trichotomy (goToLower ((a.val.GetString).getD ""))
              (goToLower ((b.val.GetString).getD "")) with hlt | heq | hgt
          · rw [if_neg (by exact not_lt.mpr (le_of_lt hlt)), if_pos hlt]
            simp [hlt]
          · exact absurd heq he
          · rw [if_pos hgt]
            constructor
            · intro hc; norm_num at hc
            · intro hlt; exact absurd hgt (not_lt.mpr (le_of_lt hlt))
      · rw [if_neg h3, if_neg h3]
        simp

/-- Duality of the value orders at equal valtypes (holds on NaN too,
because both Go comparisons are then false). -/
theorem not_valLt_iff (x y : Val) (ht : x.valtype = y.valtype) :
    (¬ valLt x y ↔ valLe y x) := by
  rw [valLt, valLe, ← ht]
  by_cases h1 : x.valtype = valtype_int
  · rw [if_pos h1, if_pos h1]; omega
  · rw [if_neg h1, if_neg h1]
    by_cases h2 : x.valtype = valtype_float
    · rw [if_pos h2, if_pos h2]
      simp
    · rw [if_neg h2, if_neg h2]
      by_cases h3 : x.valtype = valtype_string
      · rw [if_pos h3, if_pos h3]
        exact not_lt
      · rw [if_neg h3, if_neg h3]
        simp

/-- Transitivity of the value order at equal valtypes, away from NaN. -/
theorem valLe_trans (x y z : Val) (h1 : x.valtype = y.valtype) (h2 : y.valtype = z.valtype)
    (nx : x.GetFloat ≠ .nan) (ny : y.GetFloat ≠ .nan) (nz : z.GetFloat ≠ .nan)
    (hxy : valLe x y) (hyz : valLe y z) : valLe x z := by
  rw [valLe, ← h1] at hyz
  rw [valLe] at hxy ⊢
  by_cases ha : x.valtype = valtype_int
  · rw [if_pos ha] at hxy hyz ⊢; omega
  · rw [if_neg ha] at hxy hyz ⊢
    by_cases hb : x.valtype = valtype_float
    · rw [if_pos hb] at hxy hyz ⊢
      exact goFloatLt_trans_neg _ _ _ nx ny nz hxy hyz
    · rw [if_neg hb] at hxy hyz ⊢
      by_cases hc : x.valtype = valtype_string
      · rw [if_pos hc] at hxy hyz ⊢
        exact le_trans hxy hyz
      · rw [if_neg hc] at hxy hyz ⊢
        trivial

/-- If the sort closure does not order `a` before `b`, then `b` compares
at most equal to `a`.  This needs no NaN hypothesis: `Compare` is
antisymmetric even through NaN. -/
theorem compare_nonneg_flip (a b : Haystalk) (h : ¬ a.Compare b < 0) : b.Compare a ≤ 0 := by
  rcases Nat.lt_trichotomy a.dkey b.dkey with hd | hd | hd
  · exact absurd (by rw [compare_dkey_lt a b hd]; norm_num) h
  · rcases Nat.lt_trichotomy a.val.valtype b.val.valtype with ht | ht | ht
    · exact absurd (by rw [compare_vt_lt a b hd ht]; norm_num) h
    · have hlt := (compare_eq_tags_lt_iff a b hd ht).not.mp h
      have hle : valLe b.val a.val := (not_valLt_iff a.val b.val ht).mp hlt
      exact (compare_eq_tags_le_iff b a hd.symm ht.symm).mpr hle
    · rw [compare_vt_lt b a hd.symm ht]; norm_num
  · rw [compare_dkey_lt b a hd]; norm_num

/-- Transitivity of `Compare ≤ 0` on NaN-free stalks. -/
theorem compare_le_trans (a b c : Haystalk)
    (na : nanFreeStalk a) (nb : nanFreeStalk b) (nc : nanFreeStalk c)
    (hab : a.Compare b ≤ 0) (hbc : b.Compare c ≤ 0) : a.Compare c ≤ 0 := by
  have hd1 : a.dkey ≤ b.dkey := by
    by_contra hgt
    rw [compare_dkey_gt a b (by omega)] at hab
    omega
  have hd2 : b.dkey ≤ c.dkey := by
    by_contra hgt
    rw [compare_dkey_gt b c (by omega)] at hbc
    omega
  rcases Nat.lt_or_ge a.dkey c.dkey with hd | hd
  · rw [compare_dkey_lt a c hd]; norm_num
  · have hdeq : a.dkey = c.dkey := by omega
    have hdab : a.dkey = b.dkey := by omega
    have hdbc : b.dkey = c.dkey := by omega
    have ht1 : a.val.valtype ≤ b.val.valtype := by
      by_contra hgt
      rw [compare_vt_gt a b hdab (by omega)] at hab
      omega
    have ht2 : b.val.valtype ≤ c.val.valtype := by
      by_contra hgt
      rw [compare_vt_gt b c hdbc (by omega)] at hbc
      omega
    rcases Nat.lt_or_ge a.val.valtype c.val.valtype with ht | ht
    · rw [compare_vt_lt a c hdeq ht]; norm_num
    · have hteq : a.val.valtype = c.val.valtype := by omega
      have htab : a.val.valtype = b.val.valtype := by omega
      have htbc : b.val.valtype = c.val.valtype := by omega
      have l1 := (compare_eq_tags_le_iff a b hdab htab).mp hab
      have l2 := (compare_eq_tags_le_iff b c hdbc htbc).mp hbc
      exact (compare_eq_tags_le_iff a c hdeq hteq).mpr
        (valLe_trans a.val b.val c.val htab htbc na nb nc l1 l2)

/-- Membership in a Go insertion step. -/
theorem mem_goInsertRev (less : Haystalk → Haystalk → Bool) (a x : Haystalk) :
    ∀ l, x ∈ goInsertRev less a l ↔ x = a ∨ x ∈ l := by
  intro l
  induction l with
  | nil => simp [goInsertRev]
  | cons b t ih =>
    rw [goInsertRev]
    by_cases hb : less a b
    · rw [if_pos hb]
      simp only [List.mem_cons, ih]
      tauto
    · rw [if_neg hb]
      simp only [List.mem_cons]

/-- One Go insertion step keeps the (reversed) prefix ordered, for NaN-free
stalks. -/
theorem goInsertRev_pairwise (a : Haystalk) (l : List Haystalk)
    (hna : nanFreeStalk a) (hnl : ∀ x ∈ l, nanFreeStalk x)
    (hp : List.Pairwise (fun x y => y.Compare x ≤ 0) l) :
    List.Pairwise (fun x y => y.Compare x ≤ 0) (goInsertRev sortBaleLess a l) := by
  induction l with
  | nil => simp [goInsertRev]
  | cons b t ih =>
    rw [goInsertRev]
    rcases List.pairwise_cons.mp hp with ⟨hb_all, hpt⟩
    by_cases hb : sortBaleLess a b
    · rw [if_pos hb]
      refine List.pairwise_cons.mpr
        ⟨?_, ih (fun x hx => hnl x (List.mem_cons_of_mem _ hx)) hpt⟩
      intro y hy
      rcases (mem_goInsertRev _ _ _ t).mp hy with rfl | hyt
      · have hlt : y.Compare b < 0 := of_decide_eq_true hb
        omega
      · exact hb_all y hyt
    · rw [if_neg hb]
      have hnlt : ¬ (a.Compare b < 0) := fun hlt => hb (decide_eq_true hlt)
      have hba : b.Compare a ≤ 0 := compare_nonneg_flip a b hnlt
      refine List.pairwise_cons.mpr ⟨?_, hp⟩
      intro y hy
      rcases List.mem_cons.mp hy with rfl | hyt
      · exact hba
      · exact compare_le_trans y b a (hnl y (List.mem_cons_of_mem _ hyt))
          (hnl b (List.mem_cons_self _ _)) hna (hb_all y hyt) hba

/-- The Go insertion sort produces a pairwise `Compare ≤ 0` list from
NaN-free input. -/
theorem goSortAux_pairwise :
    ∀ (l acc : List Haystalk), (∀ x ∈ l, nanFreeStalk x) → (∀ x ∈ acc, nanFreeStalk x) →
      List.Pairwise (fun x y => y.Compare x ≤ 0) acc →
      List.Pairwise (fun a b => a.Compare b ≤ 0) (goSortAux sortBaleLess acc l) := by
  intro l
  induction l with
  | nil =>
    intro acc _ _ hacc
    rw [goSortAux]
    exact (List.pairwise_reverse).mpr hacc
  | cons a t ih =>
    intro acc hnl hnacc hacc
    rw [goSortAux]
    refine ih _ (fun x hx => hnl x (List.mem_cons_of_mem _ hx)) ?_ ?_
    · intro x hx
      rcases (mem_goInsertRev _ _ _ acc).mp hx with rfl | hxa
      · exact hnl x (List.mem_cons_self _ _)
      · exact hnacc x hxa
    · exact goInsertRev_pairwise a acc (hnl a (List.mem_cons_self _ _)) hnacc hacc

/-- Congruence: `Compare` reads only `dkey` and `val`. -/
theorem compare_congr (a a2 b b2 : Haystalk)
    (ha1 : a.dkey = a2.dkey) (ha2 : a.val = a2.val)
    (hb1 : b.dkey = b2.dkey) (hb2 : b.val = b2.val) :
    a.Compare b = a2.Compare b2 := by
  rw [Haystalk.Compare, Haystalk.Compare, ha1, ha2, hb1, hb2]

/-- The offset fix-up pass does not affect comparisons. -/
theorem compare_fix (m : Nat → Nat) (a b : Haystalk) :
    (fixStalk m a).Compare (fixStalk m b) = a.Compare b :=
  (compare_congr a (fixStalk m a) b (fixStalk m b) rfl rfl rfl rfl).symm

/-- The de-duplication pass keeps every stalk's `dkey` and `val` (the
rewritten string is equal by the guard). -/
theorem dedupPass_keeps : ∀ (l : List Haystalk) (prev : Option String),
    List.Forall₂ (fun x y => x.dkey = y.dkey ∧ x.val = y.val) l (dedupPass prev l).1 := by
  intro l
  induction l with
  | nil => intro prev; exact List.Forall₂.nil
  | cons s t ih =>
    intro prev
    rw [dedupPass.eq_def]
    dsimp only
    by_cases hvt : s.val.valtype = valtype_string
    · rw [if_pos hvt]
      cases prev with
      | none => exact List.Forall₂.cons ⟨rfl, rfl⟩ (ih _)
      | some pstr =>
        dsimp only
        by_cases hsv : s.val.stringval = some pstr
        · rw [if_pos hsv]
          refine List.Forall₂.cons ⟨rfl, ?_⟩ (ih _)
          rw [← hsv]
        · rw [if_neg hsv]
          exact List.Forall₂.cons ⟨rfl, rfl⟩ (ih _)
    · rw [if_neg hvt]
      exact List.Forall₂.cons ⟨rfl, rfl⟩ (ih _)

/-- Every member of the right list of a `Forall₂` has a related member on
the left. -/
theorem forall₂_exists_mem {E : Haystalk → Haystalk → Prop} :
    ∀ {l l2 : List Haystalk}, List.Forall₂ E l l2 → ∀ y ∈ l2, ∃ x ∈ l, E x y := by
  intro l l2 h
  induction h with
  | nil => intro y hy; simp at hy
  | cons he ht ih =>
    intro y hy
    rcases List.mem_cons.mp hy with rfl | hy2
    · exact ⟨_, List.mem_cons_self _ _, he⟩
    · obtain ⟨x, hx, hxy⟩ := ih y hy2
      exact ⟨x, List.mem_cons_of_mem _ hx, hxy⟩

/-- Pairwise `Compare ≤ 0` transports along dkey/val-preserving
replacement. -/
theorem pairwise_transport :
    ∀ {l l2 : List Haystalk},
      List.Forall₂ (fun x y => x.dkey = y.dkey ∧ x.val = y.val) l l2 →
      List.Pairwise (fun a b => a.Compare b ≤ 0) l →
      List.Pairwise (fun a b => a.Compare b ≤ 0) l2 := by
  intro l l2 h
  induction h with
  | nil => intro _; exact List.Pairwise.nil
  | @cons x y t t2 he ht ih =>
    intro hp
    rcases List.pairwise_cons.mp hp with ⟨hall, hpt⟩
    refine List.pairwise_cons.mpr ⟨?_, ih hpt⟩
    intro y2 hy2
    obtain ⟨x2, hx2, he2⟩ := forall₂_exists_mem ht y2 hy2
    rw [← compare_congr x y x2 y2 he.1 he.2 he2.1 he2.2]
    exact hall x2 hx2

/-- C1 (amended): every Haybale made immutable by the `Compare`-based
`SortBale` whose stalks carry no NaN float value is totally ordered: for
all positions `i < j`, `Compare(stalk[i], stalk[j]) ≤ 0`, including the
case-insensitive string comparison.  (With a NaN stalk the sort closure is
not a strict weak order and the property fails — see the counterexample.)
-/
theorem sortBale_pairwise_compare_le (hb : Haybale)
    (hmut : hb.is_sorted_immutable = false)
    (hnan : ∀ s ∈ hb.haystalk, nanFreeStalk s) :
    List.Pairwise (fun a b => a.Compare b ≤ 0) (hb.SortBale).haystalk := by
  rw [Haybale.SortBale, hmut]
  simp only [Bool.false_eq_true, if_false]
  have hsorted : List.Pairwise (fun a b => a.Compare b ≤ 0)
      (goSortSlice sortBaleLess hb.haystalk) := by
    rw [goSortSlice]
    exact goSortAux_pairwise hb.haystalk [] hnan (by simp) List.Pairwise.nil
  have hmap : List.Pairwise (fun a b => a.Compare b ≤ 0)
      ((goSortSlice sortBaleLess hb.haystalk).map
        (fixStalk (buildNewOld (goSortSlice sortBaleLess hb.haystalk)))) := by
    rw [List.pairwise_map]
    exact hsorted.imp (fun h => by rw [compare_fix]; exact h)
  exact pairwise_transport (dedupPass_keeps _ none) hmap

/-- C1 witness: a writable two-stalk int bale, sorted. -/
theorem sortBale_pairwise_compare_le_witness :
    List.Pairwise (fun a b => a.Compare b ≤ 0) (wBale.SortBale).haystalk :=
  sortBale_pairwise_compare_le wBale rfl (by
    intro s hs
    rw [show wBale.haystalk = [wIntStalk 5 0, wIntStalk 3 1] from rfl] at hs
    unfold nanFreeStalk
    fin_cases hs <;> decide)
